import Mathlib

/-!
Verification of the sprockets model-based conformance test driver.

Each section embeds one part of the Python source as executable Lean
definitions and proves (or refutes) the specification claims about it.
Python dictionaries are modelled as association lists or total functions,
Python sets as duplicate-free lists, raised exceptions as `Option`/`none`,
and `float('inf')` edge weights as `ℕ∞` (`WithTop ℕ`).
-/

namespace Sprockets

/-! ### Qualifiers (`stl/lib.py`)

The library qualifier classes.  A qualifier owns private mutable memory
(`num`, `used_values`); `Generate`/`Validate` are embedded as explicit
state-passing functions.  The `while` loop inside `Generate` is embedded
with fuel (`none` models a non-terminating loop, which never happens for
the inputs considered here). -/

/-- Mutable state of `UniqueString` / `UniqueInt`: the `num` counter and the
`used_values` set (modelled as a duplicate-free list). -/
structure UniqueState (α : Type) where
  num : Nat
  used_values : List α
deriving DecidableEq, Repr

namespace UniqueString

/-- `UniqueString.__init__`: `num = 0`, `used_values = set()`. -/
def init : UniqueState String := ⟨0, []⟩

/-- `'unique-%d' % n`. -/
def fmt (n : Nat) : String := "unique-" ++ toString n

/-- The `while value in self.used_values` loop of `UniqueString.Generate`:
keeps proposing `'unique-%d' % num` and bumping `num` until the candidate is
not in `used_values`.  Runs on fuel; `none` = loop did not finish. -/
def genLoop (used : List String) : Nat → Nat → String → Option (String × Nat)
  | 0, _, _ => none
  | fuel + 1, num, value =>
      if value ∈ used then genLoop used fuel (num + 1) (fmt num)
      else some (value, num)

/-- `UniqueString.Generate(self)`: propose `'unique-%d' % num`, bump `num`,
loop while the proposal is used, record the result in `used_values` and
return it. -/
def Generate (st : UniqueState String) : Option (String × UniqueState String) :=
  match genLoop st.used_values (st.used_values.length + 1) (st.num + 1) (fmt st.num) with
  | none => none
  | some (value, num) => some (value, ⟨num, st.used_values.insert value⟩)

/-- `UniqueString.Validate(self, value)`: valid iff `value` was never seen;
always records `value` into `used_values`. -/
def Validate (st : UniqueState String) (value : String) :
    Bool × UniqueState String :=
  (decide (value ∉ st.used_values), ⟨st.num, st.used_values.insert value⟩)

end UniqueString

namespace UniqueInt

/-- `UniqueInt.__init__`: `num = 0`, `used_values = set()`. -/
def init : UniqueState Nat := ⟨0, []⟩

/-- The `while value in self.used_values` loop of `UniqueInt.Generate`. -/
def genLoop (used : List Nat) : Nat → Nat → Nat → Option (Nat × Nat)
  | 0, _, _ => none
  | fuel + 1, num, value =>
      if value ∈ used then genLoop used fuel (num + 1) num
      else some (value, num)

/-- `UniqueInt.Generate(self)`. -/
def Generate (st : UniqueState Nat) : Option (Nat × UniqueState Nat) :=
  match genLoop st.used_values (st.used_values.length + 1) (st.num + 1) st.num with
  | none => none
  | some (value, num) => some (value, ⟨num, st.used_values.insert value⟩)

/-- `UniqueInt.Validate(self, value)`. -/
def Validate (st : UniqueState Nat) (value : Nat) : Bool × UniqueState Nat :=
  (decide (value ∉ st.used_values), ⟨st.num, st.used_values.insert value⟩)

end UniqueInt

/-! ### Vertex/transition matching (`stl/graph.py`, `StateVertex`)

A graph vertex holds a list of `StateValue`s, each a pair of a resolved
state and a value symbol.  `_MatchWithTransition` enumerates
`itertools.product(*trans.pre_states)` — every way of picking one option
per option group — and accepts when some combination is compatible. -/

/-- A `StateValue`: a resolved state paired with its current value symbol.
The state and value types are abstract (they only need equality, matching
Python `__eq__`). -/
structure SV (S V : Type) where
  state : S
  value : V
deriving DecidableEq, Repr

/-- `itertools.product(*lists)`: all ways of picking one element from each
list, leftmost index varying slowest. -/
def pyProduct {α : Type} : List (List α) → List (List α)
  | [] => [[]]
  | g :: gs => g.flatMap (fun x => (pyProduct gs).map (x :: ·))

namespace StateVertex

/-- `StateVertex._MatchWithState`: the vertex (given by its `state_list`)
is compatible with option `opt` unless it contains a `StateValue` with the
same resolved state but a different value. -/
def MatchWithState {S V : Type} [DecidableEq S] [DecidableEq V]
    (stateList : List (SV S V)) (opt : SV S V) : Bool :=
  stateList.all fun s => !(opt.state = s.state ∧ opt.value ≠ s.value)

/-- `StateVertex._MatchWithTransition`: some element of
`itertools.product(*pre_states)` has all of its chosen options compatible
with the vertex. -/
def MatchWithTransition {S V : Type} [DecidableEq S] [DecidableEq V]
    (stateList : List (SV S V)) (preStates : List (List (SV S V))) : Bool :=
  (pyProduct preStates).any fun choice =>
    choice.all (MatchWithState stateList)

end StateVertex

/-! ### Transitions (`stl/state.py`)

`Transition` resolution and execution.  The component types (parameters,
local variables, pre/post/error state values, events, expand expressions)
are abstract; Python `__eq__` on them is modelled by `DecidableEq`. -/

/-- `stl.state.Transition`: the fields compared by `Transition.__eq__`
(`stl/state.py` lines 194-200).  `expand` is `None` or an expansion
expression. -/
structure Transition (P L S E X : Type) where
  name : String
  params : List P
  local_vars : List L
  pre_states : List (List S)
  events : List E
  post_states : List S
  error_states : List S
  expand : Option X
deriving DecidableEq

namespace Transition

variable {P L S E X Env RP : Type}

/-- `Transition.__eq__`: conjunction of `name` equality (from
`NamedObject`), `params` equality (from `ParameterizedObject`) and the
remaining field equalities. -/
def eqb [DecidableEq P] [DecidableEq L] [DecidableEq S] [DecidableEq E]
    [DecidableEq X] (a b : Transition P L S E X) : Bool :=
  decide (a.name = b.name) && decide (a.params = b.params) &&
  decide (a.local_vars = b.local_vars) &&
  decide (a.pre_states = b.pre_states) && decide (a.events = b.events) &&
  decide (a.post_states = b.post_states) &&
  decide (a.error_states = b.error_states) && decide (a.expand = b.expand)

/-- `Transition.IsResolved`: `not self.params and not self.expand`. -/
def IsResolved (t : Transition P L S E X) : Bool :=
  t.params.isEmpty && t.expand.isNone

/-- `Transition.Resolve(self, env, resolved_params)`.  The early return
`if self.IsResolved(): return self` is the code path under study; the body
that handles unresolved transitions (expansion lookup, state/event
resolution, `stl/state.py` lines 218-275) is taken as an arbitrary
function `resolveRest`, since it is unreachable for resolved input. -/
def Resolve (resolveRest : Transition P L S E X → Env → RP → Transition P L S E X)
    (t : Transition P L S E X) (env : Env) (resolved_params : RP) :
    Transition P L S E X :=
  if t.IsResolved then t else resolveRest t env resolved_params

/-- Result of one `Transition.Run()` event invocation, seen from Python:
the interesting distinction is whether the returned object *is* the
literal `False` singleton (`e.Run() is False`).  Other objects — `True`,
`None`, numbers, strings — are carried for the record. -/
inductive PyRet
  | pyFalse
  | pyTrue
  | pyNone
  | pyInt (n : Int)
  | pyStr (s : String)
deriving DecidableEq, Repr

/-- `x is False` for a Python object `x`: identity with the `False`
singleton.  `0`, `None`, `''` are *not* `False` under `is`. -/
def isLitFalse : PyRet → Bool
  | .pyFalse => true
  | _ => false

/-- `Transition.Run(self)` (`stl/state.py` lines 277-286), instrumented:
events run in list order, `run e` giving each event's returned object;
the first event whose result `is False` aborts the loop.  Returns the
boolean result together with the list of events actually invoked. -/
def RunTrace {α : Type} (run : α → PyRet) : List α → Bool × List α
  | [] => (true, [])
  | e :: es =>
      if isLitFalse (run e) then (false, [e])
      else
        let r := RunTrace run es
        (r.1, e :: r.2)

end Transition

/-! ### Key/value encoding (`example/example_lib.py`) -/

/-- A primitive Python value stored in a message field map. -/
inductive PyVal
  | int (n : Int)
  | str (s : String)
  | bool (b : Bool)
deriving DecidableEq, Repr

/-- The STL field types relevant to `KeyValueEncoding`. -/
inductive FType
  | bool
  | int
  | string
deriving DecidableEq, Repr

/-- A message field together with the two `encoding_props` entries
(`ord`, `key`) that `KeyValueEncoding` reads. -/
structure KVField where
  name : String
  type_ : FType
  ord : Nat
  key : String
deriving DecidableEq, Repr

/-- `str(val)` for the payload of a `%s` format: Python renders `True` /
`False` capitalized. -/
def pyStrOf : PyVal → String
  | .int n => toString n
  | .str s => s
  | .bool b => if b then "True" else "False"

/-- `'%d' % val`: requires an integral value (`TypeError` otherwise;
Python treats `bool` as integral with `True = 1`). -/
def pyFmtInt : PyVal → Option String
  | .int n => some (toString n)
  | .bool b => some (if b then "1" else "0")
  | .str _ => none

namespace KeyValueEncoding

/-- One iteration of the `for field in message_type.fields` loop of
`SerializeToString`: formats `key=value` according to `field.type_` and
stores it at index `field.encoding_props['ord']` (`none` on an
out-of-range `ord`, Python's `IndexError`). -/
def serField (values : List (String × PyVal)) (kv : List (Option String))
    (f : KVField) : Option (List (Option String)) :=
  match values.lookup f.name with
  | none => some kv
  | some v =>
      if f.ord < kv.length then
        match f.type_ with
        | .bool => some (kv.set f.ord (some (f.key ++ "=" ++ pyStrOf v)))
        | .int =>
            match pyFmtInt v with
            | none => none
            | some s => some (kv.set f.ord (some (f.key ++ "=" ++ s)))
        | .string => some (kv.set f.ord (some (f.key ++ "=" ++ pyStrOf v)))
      else none

/-- `KeyValueEncoding.SerializeToString`: build `[None] * len(fields)`,
fill slot `ord` for every field present in `values`, then
`','.join(kv_pairs)` (`none` if a `None` slot remains — Python's
`TypeError` inside `join`). -/
def SerializeToString (values : List (String × PyVal))
    (fields : List KVField) : Option String := do
  let kv0 : List (Option String) := List.replicate fields.length none
  let kv ← fields.foldlM (serField values) kv0
  let parts ← kv.mapM id
  pure (String.intercalate "," parts)

/-- Python `text.split(sep)` with an explicit one-character separator:
splits at every occurrence, keeping empty pieces. -/
def pySplitAll (sep : Char) : List Char → List (List Char)
  | [] => [[]]
  | c :: rest =>
      let r := pySplitAll sep rest
      if c = sep then [] :: r
      else
        match r with
        | [] => [[c]]
        | h :: t => (c :: h) :: t

/-- Dictionary insertion `values[k] = v` on an association list: replaces
an existing binding of `k`, otherwise appends. -/
def dictInsert (m : List (String × PyVal)) (k : String) (v : PyVal) :
    List (String × PyVal) :=
  if m.any (fun p => p.1 = k) then
    m.map fun p => if p.1 = k then (k, v) else p
  else m ++ [(k, v)]

/-- The digit-string part of `int(value)`. -/
def pyParseNat (l : List Char) : Option Nat :=
  if l = [] then none
  else
    l.foldlM
      (fun acc c =>
        if c.isDigit then some (acc * 10 + (c.toNat - '0'.toNat)) else none)
      0

/-- `int(value)` (`none` on a non-numeric literal, Python's `ValueError`). -/
def pyInt : List Char → Option Int
  | '-' :: rest => (pyParseNat rest).map fun n => -(n : Int)
  | l => (pyParseNat l).map Int.ofNat

/-- One iteration of the `for pair in encoded.split(',')` loop of
`ParseFromString`: `key, value = pair.split('=')` (`none` unless exactly
one `=`), look the key up in the key-to-field dictionary (`none` =
`KeyError`; a later field with the same key shadows an earlier one), and
store the typed value. -/
def parsePair (fields : List KVField) (values : List (String × PyVal))
    (pair : List Char) : Option (List (String × PyVal)) :=
  match pySplitAll '=' pair with
  | [key, value] =>
      match fields.reverse.find? (fun f => f.key = String.mk key) with
      | none => none
      | some f =>
          match f.type_ with
          | .bool =>
              some (dictInsert values f.name (.bool (String.mk value = "True")))
          | .int =>
              match pyInt value with
              | none => none
              | some n => some (dictInsert values f.name (.int n))
          | .string => some (dictInsert values f.name (.str (String.mk value)))
  | _ => none

/-- `KeyValueEncoding.ParseFromString`. -/
def ParseFromString (encoded : String) (fields : List KVField) :
    Option (List (String × PyVal)) :=
  (pySplitAll ',' encoded.toList).foldlM (parsePair fields) []

/-- The three fields of the claim's message type, in declaration order. -/
def exFields : List KVField :=
  [⟨"request_id", .int, 0, "ri"⟩,
   ⟨"data", .string, 1, "da"⟩,
   ⟨"broadcast", .bool, 2, "br"⟩]

/-- The claim's value map `{request_id: 10, data: "dummy_data",
broadcast: true}`. -/
def exValues : List (String × PyVal) :=
  [("request_id", .int 10), ("data", .str "dummy_data"),
   ("broadcast", .bool true)]

end KeyValueEncoding

/-! ### Manifest argument splitting (`test_driver.py`, `Main`)

`Main` turns each `-a` argument into a key/value pair with
`key, value = arg.split('=', 1)`. -/

/-- Python `arg.split('=', 1)` followed by unpacking into two names:
splits at the *first* `=`; `none` when the argument has no `=` at all
(Python's unpack `ValueError`). -/
def pySplitOnce : List Char → Option (List Char × List Char)
  | [] => none
  | c :: rest =>
      if c = '=' then some ([], rest)
      else (pySplitOnce rest).map fun p => (c :: p.1, p.2)

/-- `key, value = arg.split('=', 1)` on strings, as executed by `Main`
(`test_driver.py` line 342). -/
def manifestArgSplit (arg : String) : Option (String × String) :=
  (pySplitOnce arg.toList).map fun p => (String.mk p.1, String.mk p.2)

/-- Modelled from the spec's words for comparison (not from the source):
the claimed *rightmost* split — the key is everything before the last `=`
and the value everything after it. -/
def rightmostSplit (arg : String) : Option (String × String) :=
  (pySplitOnce arg.toList.reverse).map fun p =>
    (String.mk p.2.reverse, String.mk p.1.reverse)

/-! ### Parser error classification (`stl/error_handler.py`,
`stl/parser_error.py`)

`ParserErrorHandler.GetError` matches the parser's remaining symbol stack
(its list of symbol type strings) against a prioritized list of
`ParserError` patterns; the first match wins and an always-matching
catch-all ends the list. -/

/-- `stl.parser_error.ParserError`: name, numeric id, message, and the
stack patterns (`none` matches any stack). -/
structure ParserError where
  error_name : String
  error_id : Nat
  error_msg : String
  stack_patterns : Option (List (List String))

/-- `' '.join(strings)`. -/
def joinSpace (l : List String) : List Char :=
  (String.intercalate " " l).toList

/-- `ParserError._SymbolStackEndsWith`: Python string `endswith` on the
space-joined symbol type names (a plain string suffix test, not a
list-suffix test). -/
def stackEndsWith (stack pattern : List String) : Bool :=
  (joinSpace pattern).isSuffixOf (joinSpace stack)

/-- `ParserError.Matches(parser)`: a `None` pattern list matches any
stack, otherwise any one of the stack patterns must be a suffix. -/
def ParserError.Matches (e : ParserError) (symstack : List String) : Bool :=
  match e.stack_patterns with
  | none => true
  | some pats => pats.any (stackEndsWith symstack)

/-- `_UNKNOWN_PARSER_ERROR` (id 200, catch-all). -/
def unknownParserError : ParserError :=
  ⟨"unknown-parser-error", 200, "There was an unknown parse error :(", none⟩

/-- `_MISSING_SEMICOLON` (id 201). -/
def missingSemicolon : ParserError :=
  ⟨"missing-semicolon", 201, "Missing semicolon.",
   some [["CONST", "type", "NAME"],
         ["MODULE", "NAME"],
         ["TRANSITION", "NAME", "params", "=", "NAME", "(",
          "param_values_without_paren", ")"],
         ["NAME", "ARROW", "NAME", "param_values", "ARROW", "NAME"]]⟩

/-- `_MISSING_CLOSING_CURLY_BRACE` (id 202). -/
def missingClosingCurlyBrace : ParserError :=
  ⟨"missing-closing-curly-brace", 202, "Missing closing curly brace \x7d.",
   some [["\x7b"]]⟩

/-- `_MISSING_POST_STATES` (id 301). -/
def missingPostStates : ParserError :=
  ⟨"missing-post-states", 301,
   "Transitions require \"post_states\". If there are no explicit post_states use an empty list (post_states = []).",
   some [["TRANSITION", "NAME", "params", "\x7b", "local_vars", "pre_states",
          "events"]]⟩

/-- `_MISSING_PRE_STATES` (id 302). -/
def missingPreStates : ParserError :=
  ⟨"missing-pre-states", 302,
   "Transitions require \"pre_states\", and the \"pre_states\" must be non-empty.",
   some [["TRANSITION", "NAME", "params", "\x7b"]]⟩

/-- `_EMPTY_PRE_STATES` (id 303). -/
def emptyPreStates : ParserError :=
  ⟨"empty-pre-states", 303, "Transitions require non-empty \"pre_states\".",
   some [["TRANSITION", "NAME", "params", "\x7b", "local_vars", "PRE_STATES",
          "=", "["]]⟩

/-- `_ALL_PARSER_ERRORS`, in priority order (the first matching error is
the one reported). -/
def allParserErrors : List ParserError :=
  [missingSemicolon, missingPostStates, missingPreStates, emptyPreStates,
   missingClosingCurlyBrace, unknownParserError]

/-- The id/message selection of `ParserErrorHandler.GetError`:
`next(error for error in _ALL_PARSER_ERRORS if error.Matches(parser))`
(`none` would model an exhausted generator, which the catch-all rules
out). -/
def GetErrorInfo (symstack : List String) : Option (Nat × String) :=
  (allParserErrors.find? fun e => e.Matches symstack).map fun e =>
    (e.error_id, e.error_msg)

/-- A PLY symbol-stack entry as used by the position report: its string
`value` and its source offset `lexpos`. -/
structure PlyToken where
  value : String
  lexpos : Nat
deriving DecidableEq, Repr

/-- `data.rfind('\n', 0, stop)`: the index of the last newline strictly
before `stop` (`none` models Python's `-1`). -/
def pyRFindNewline (data : List Char) (stop : Nat) : Option Nat :=
  ((List.range stop).filter fun i => data.get? i = some '\n').getLast?

/-- `_GetColumn(data, token)` (`stl/error_handler.py` lines 120-126): the
distance from the last newline before the token to the token; a negative
`rfind` result is replaced by 0. -/
def GetColumn (data : List Char) (token : PlyToken) : Nat :=
  match pyRFindNewline data token.lexpos with
  | none => token.lexpos - 0
  | some i => token.lexpos - i

/-- The column span produced by `_GetErrorPosition` (`stl/error_handler.py`
lines 136-142): `error_start_column = _GetColumn(...) - 1` and
`error_end_column = error_start_column + len(str(token.value)) - 1`. -/
def GetErrorPositionCols (data : List Char) (token : PlyToken) :
    Int × Int :=
  ((GetColumn data token : Int) - 1,
   (GetColumn data token : Int) - 1 + (token.value.length : Int) - 1)

/-- Modelled from the spec: the class-style `StlParser` (the parser with
the pluggable error handler used by `stl/parser_error_test.py`) is not
present in the source tree — only its tests and the handler it calls are.
Per the spec's §4.B error table, on the scenario-S5 source
`module foo\nconst int a = 1;` it aborts with the LALR symbol stack
ending `MODULE NAME` (over the `$end` bottom marker): these are the
symbol type names `GetError` matches. -/
def s5SymStackTypes : List String := ["$end", "MODULE", "NAME"]

/-- Modelled from the spec (see `s5SymStackTypes`): `parser.symstack[-1]`,
the token `GetError` reports the position of, is the stack's top `NAME`
symbol — the token `foo`, which starts at offset 7 of the source. -/
def s5FinalToken : PlyToken := ⟨"foo", 7⟩

/-- The scenario-S5 source text. -/
def s5Source : List Char := "module foo\nconst int a = 1;".toList

/-- The lookahead token `const` of the S5 source (offset 11), for
comparing the reported position against the claim's expectation. -/
def s5ConstToken : PlyToken := ⟨"const", 11⟩

/-! ### Executor (`test_driver.py`, `TraverseGraph`)

The executor walks the planner's circuit; edges are identified by
`(source, target, edge_index)` triples.  The nx edge-attribute
dictionaries are modelled as total functions, `float('inf')` weights as
`⊤ : ℕ∞`.  The external pieces — each transition's `Run()` outcome and
`nx.shortest_path` — are oracle parameters.  The Python
`circuit_stack.extend(reversed(path_stack))` followed by `pop()` from the
list's end is modelled by prepending `path_stack` to a head-is-top
stack. -/

/-- An nx multidigraph edge identifier `(source, target, edge_index)`. -/
abbrev EdgeId := Nat × Nat × Nat

/-- The fixed surroundings of `TraverseGraph`:
`parallel s t` lists the edge keys of the parallel edges from `s` to `t`
(in nx dictionary order); `errv` is each edge's `error_vertex_id`
attribute; `runO k e` is the result of the `k`-th `transition.Run()`
invocation of the walk (the transition being the one on edge `e`);
`sp w u v` is `nx.shortest_path` from `u` to `v` under edge weights `w`. -/
structure ExecEnv where
  parallel : Nat → Nat → List Nat
  errv : EdgeId → Nat
  runO : Nat → EdgeId → Bool
  sp : (EdgeId → ℕ∞) → Nat → Nat → List Nat

/-- The mutable state of the `while circuit_stack` loop: the stack, the
current edge weights, the `success` flag and (instrumentation) the list
of `transition.Run()` results observed so far. -/
structure ExecState where
  stack : List EdgeId
  weight : EdgeId → ℕ∞
  success : Bool
  trace : List Bool

/-- The `for key, value in multi_edge.items()` minimum search of the
recovery loop: the first key whose weight is strictly below all earlier
ones (`min_edge_i = 0` before the loop, `min_weight = float('inf')`). -/
def minEdgeKey (w : EdgeId → ℕ∞) (s t : Nat) (keys : List Nat) : Nat :=
  (keys.foldl
    (fun acc k => if w (s, t, k) < acc.2 then (k, w (s, t, k)) else acc)
    ((0 : Nat), (⊤ : ℕ∞))).1

/-- Outcome of building `path_stack` from a recovery path. -/
inductive RerouteResult
  | crash
  | abort
  | path (l : List EdgeId)

/-- The `for i in range(len(new_path) - 1)` loop of `TraverseGraph`:
for each consecutive pair pick the minimum-weight parallel edge; if the
chosen edge's weight is `+∞`, the whole run returns immediately
(`abort`); a pair with no parallel edges at all is a `KeyError`
(`crash`). -/
def buildPathStack (env : ExecEnv) (w : EdgeId → ℕ∞) :
    List Nat → RerouteResult
  | [] => .path []
  | [_] => .path []
  | s :: t :: rest =>
      let keys := env.parallel s t
      if keys.isEmpty then .crash
      else
        let k := minEdgeKey w s t keys
        if w (s, t, k) = ⊤ then .abort
        else
          match buildPathStack env w (t :: rest) with
          | .crash => .crash
          | .abort => .abort
          | .path l => .path ((s, t, k) :: l)

/-- Outcome of the recovery phase for one popped edge. -/
inductive StepOut
  | crash
  | done (b : Bool) (tr : List Bool) (ab : Bool)
  | next (st : ExecState)

/-- The recovery phase for edge `edge` (`test_driver.py` lines 283-303):
compute the shortest path from the edge's declared error vertex to its
target, turn it into `path_stack`, and either return from `TraverseGraph`
with the current `success` (an `+∞` minimum-weight step), die on a
`KeyError`, or push the path onto the stack (Python pushes
`reversed(path_stack)` onto the end-popped list, i.e. the path is walked
in order — prepending to the head-is-top stack). -/
def rerouteStep (env : ExecEnv) (edge : EdgeId) (st : ExecState) : StepOut :=
  match buildPathStack env st.weight
      (env.sp st.weight (env.errv edge) edge.2.1) with
  | .crash => .crash
  | .abort => .done st.success st.trace true
  | .path l => .next { st with stack := l ++ st.stack }

/-- `TraverseGraph`'s main loop (`test_driver.py` lines 266-304), on
fuel (`none` = fuel exhausted or a modelled Python exception).  Returns
`(returned value, run-result trace, aborted-through-∞-edge flag)`; the
trace records each `transition.Run()` result in invocation order. -/
def traverse (env : ExecEnv) : Nat → ExecState → Option (Bool × List Bool × Bool)
  | 0, _ => none
  | fuel + 1, st =>
      match st.stack with
      | [] => some (st.success, st.trace, false)
      | edge :: rest =>
          if st.weight edge ≠ ⊤ then
            if env.runO st.trace.length edge then
              traverse env fuel
                { st with stack := rest, trace := st.trace ++ [true] }
            else
              match rerouteStep env edge
                  { stack := rest,
                    weight := Function.update st.weight edge ⊤,
                    success := false, trace := st.trace ++ [false] } with
              | .crash => none
              | .done b tr ab => some (b, tr, ab)
              | .next st' => traverse env fuel st'
          else
            match rerouteStep env edge { st with stack := rest } with
            | .crash => none
            | .done b tr ab => some (b, tr, ab)
            | .next st' => traverse env fuel st'

/-- The environment of the concrete executor run used as a witness: a
single self-loop edge `(0,0,0)` whose transition always fails; the
shortest path from the error vertex loops through the now-infinite
edge. -/
def failEnv : ExecEnv :=
  ⟨fun _ _ => [0], fun _ => 0, fun _ _ => false, fun _ _ _ => [0, 0]⟩

/-! ### Planner guard (`stl/traverse.py`, `MinEdgeCoverCircuit` lines
284-285)

`MinEdgeCoverCircuit` raises
`RuntimeError('Graph is not strongly connected.')` as its very first
action when `nx.is_strongly_connected(graph)` is false.  The nx
connectivity test is modelled by an executable reachability closure over
the vertex/edge lists and proved below to decide mathematical strong
connectivity. -/

/-- The directed multigraph as seen by the planner: vertex ids and the
directed edge list (parallel edges may repeat a pair; weights play no role
in connectivity). -/
structure MDGraph where
  nodes : List Nat
  edges : List (Nat × Nat)

/-- The successors of `v`. -/
def succs (G : MDGraph) (v : Nat) : List Nat :=
  (G.edges.filter fun e => e.1 = v).map (·.2)

/-- One round of reachability closure: a set together with all direct
successors of its members. -/
def closureStep (G : MDGraph) (s : List Nat) : List Nat :=
  (s ++ s.flatMap (succs G)).dedup

/-- `n` rounds of closure. -/
def closureN (G : MDGraph) : Nat → List Nat → List Nat
  | 0, s => s
  | n + 1, s => closureN G n (closureStep G s)

/-- All vertices reachable from `v`: `|nodes|` closure rounds are enough
to saturate. -/
def reachList (G : MDGraph) (v : Nat) : List Nat :=
  closureN G G.nodes.length [v]

/-- Model of `nx.is_strongly_connected`: every vertex reaches every
vertex. -/
def isStronglyConnected (G : MDGraph) : Bool :=
  G.nodes.all fun u => G.nodes.all fun v => decide (v ∈ reachList G u)

/-- The guard at the top of `MinEdgeCoverCircuit`: raise `RuntimeError`
when the graph is not strongly connected, before any planning work;
otherwise continue into planning. -/
def MinEdgeCoverCircuitGuard (G : MDGraph) : Except String Unit :=
  if isStronglyConnected G then Except.ok ()
  else Except.error "Graph is not strongly connected."

/-- Mathematical reachability along directed edges. -/
def Reach (G : MDGraph) : Nat → Nat → Prop :=
  Relation.ReflTransGen fun a b => (a, b) ∈ G.edges

/-- A vertex set closed under outgoing edges. -/
def EdgeClosed (G : MDGraph) (s : List Nat) : Prop :=
  ∀ y ∈ s, ∀ x, (y, x) ∈ G.edges → x ∈ s

/-! ### Planner expansion (`stl/traverse.py`, `MinEdgeCoverCircuit` lines
286-339)

After the connectivity guard, `MinEdgeCoverCircuit` pairs the
degree-imbalanced vertex copies by a bipartite matching
(`Context.MaxBipartiteMatching` over `nx.floyd_warshall` distances), adds
one *virtual* edge per matched pair annotated with its concrete
`nx.shortest_path`, asks `nx.eulerian_circuit` for a circuit of the
augmented `copy` graph starting at the initial vertex, and expands that
circuit into concrete `(source, target, edge_index)` triples: each
circuit step marks the first unvisited parallel edge of `copy[s][t]`
visited and emits either that edge's triple or, for a virtual edge, the
minimum-weight edges along its `sub_path`.

The expansion phase is embedded exactly.  The matching/shortest-path
results (`M`) and the Eulerian circuit (`E`) enter as parameters
constrained by the library contracts: the circuit is a chained walk from
the initial vertex crossing each `copy` edge exactly once, and each
virtual edge carries a concrete path between its endpoints. -/

/-- One original multigraph edge.  `BuildTransitionGraph` gives every edge
`weight=1`; the weight is kept general.  The nx edge key of an edge is its
position among the parallel edges with the same endpoints, in insertion
order. -/
structure GEdge where
  src : Nat
  tgt : Nat
  weight : Nat
deriving DecidableEq, Repr

/-- A virtual matching edge:
`copy.add_edge(k[0], v[0], sub_path=nx.shortest_path(graph, k[0], v[0]))`. -/
structure VEdge where
  src : Nat
  tgt : Nat
  sub_path : List Nat
deriving DecidableEq, Repr

/-- The parallel edges of the original graph from `s` to `t`, in key
order. -/
def parallelReal (G : List GEdge) (s t : Nat) : List GEdge :=
  G.filter fun e => e.src = s ∧ e.tgt = t

/-- An edge of the augmented `copy` graph between a fixed vertex pair. -/
inductive CEdge
  | real (w : Nat)
  | virt (path : List Nat)
deriving DecidableEq, Repr

/-- `copy[s][t]` in key order: the original parallel edges keep their
keys, and each virtual edge receives the next free key, i.e. is
appended. -/
def copyParallel (G : List GEdge) (M : List VEdge) (s t : Nat) :
    List CEdge :=
  (parallelReal G s t).map (fun e => .real e.weight) ++
    ((M.filter fun m => m.src = s ∧ m.tgt = t).map fun m => .virt m.sub_path)

/-- Index of the first `false` flag. -/
def firstFalse : List Bool → Option Nat
  | [] => none
  | b :: rest => if b then (firstFalse rest).map (· + 1) else some 0

/-- `for edge_index, edge in copy[s][t].items(): if not edge['visited']:
break` — the first unvisited key; when every edge is already visited the
loop variable is left at the last key. -/
def pickIdx (flags : List Bool) : Nat :=
  (firstFalse flags).getD (flags.length - 1)

/-- The `best_index` search over `graph[last][node].items()`: the first
key of strictly minimal weight, starting from `best_index = 0`,
`min_weight = float('inf')`. -/
def bestIndexAux : List Nat → Nat → Nat → ℕ∞ → Nat
  | [], _, best, _ => best
  | w :: rest, i, best, mw =>
      if (w : ℕ∞) < mw then bestIndexAux rest (i + 1) i (w : ℕ∞)
      else bestIndexAux rest (i + 1) best mw

/-- First index of minimal weight among the parallel edges. -/
def bestIndex (ws : List Nat) : Nat := bestIndexAux ws 0 0 ⊤

/-- Expansion of a virtual edge's `sub_path` into the minimum-weight
concrete edge of each step (`none` models the `IndexError` on an empty
path and the `KeyError` on a non-adjacent consecutive pair). -/
def expandPath (G : List GEdge) : List Nat → Option (List (Nat × Nat × Nat))
  | [] => none
  | [_] => some []
  | s :: t :: rest =>
      let ws := (parallelReal G s t).map (·.weight)
      if ws.isEmpty then none
      else
        match expandPath G (t :: rest) with
        | none => none
        | some l => some ((s, t, bestIndex ws) :: l)

/-- Process one circuit step `(s, t)`: mark the first unvisited parallel
edge of `copy[s][t]` visited and emit its triple, or a virtual edge's
expansion.  The per-key visited flags of the copy's edge dictionaries are
modelled as a function from vertex pairs to flag lists; `none` models the
`KeyError` on a pair with no parallel edges (the unreachable `get?`
mismatch branch only keeps the function total: the flag list always has
the parallel edges' length). -/
def expandOne (G : List GEdge) (M : List VEdge)
    (vis : Nat × Nat → List Bool) (p : Nat × Nat) :
    Option ((Nat × Nat → List Bool) × List (Nat × Nat × Nat)) :=
  if (copyParallel G M p.1 p.2).isEmpty then none
  else
    match (copyParallel G M p.1 p.2).get? (pickIdx (vis p)) with
    | none => none
    | some (.real _) =>
        some (Function.update vis p ((vis p).set (pickIdx (vis p)) true),
          [(p.1, p.2, pickIdx (vis p))])
    | some (.virt path) =>
        match expandPath G path with
        | none => none
        | some l =>
            some (Function.update vis p ((vis p).set (pickIdx (vis p)) true),
              l)

/-- The `for circuit_edge in euler_circuit` loop. -/
def expandCircuit (G : List GEdge) (M : List VEdge) :
    (Nat × Nat → List Bool) → List (Nat × Nat) →
      Option (List (Nat × Nat × Nat))
  | _, [] => some []
  | vis, p :: rest =>
      match expandOne G M vis p with
      | none => none
      | some (vis', block) =>
          match expandCircuit G M vis' rest with
          | none => none
          | some l => some (block ++ l)

/-- The expansion phase of `MinEdgeCoverCircuit`, with every `visited`
flag initially false. -/
def MinEdgeCoverCircuitExpand (G : List GEdge) (M : List VEdge)
    (E : List (Nat × Nat)) : Option (List (Nat × Nat × Nat)) :=
  expandCircuit G M
    (fun p => (copyParallel G M p.1 p.2).map fun _ => false) E

/-- Consecutive chaining of circuit vertex pairs. -/
def chainedPairs : List (Nat × Nat) → Bool
  | [] => true
  | [_] => true
  | a :: b :: rest => decide (a.2 = b.1) && chainedPairs (b :: rest)

/-- Consecutive chaining of edge triples: each entry's target is the next
entry's source. -/
def chainedTriples : List (Nat × Nat × Nat) → Bool
  | [] => true
  | [_] => true
  | a :: b :: rest => decide (a.2.1 = b.1) && chainedTriples (b :: rest)

/-- Adjacency of each consecutive pair of a path in the original graph. -/
def adjChain (G : List GEdge) : List Nat → Bool
  | [] => true
  | [_] => true
  | s :: t :: rest => !(parallelReal G s t).isEmpty && adjChain G (t :: rest)

/-- The `nx.shortest_path` contract for a virtual edge: its stored
`sub_path` has at least two vertices (matched pairs join distinct
left/right copies), leads from the edge's source to its target, and every
consecutive pair is adjacent in the original graph. -/
def subPathOk (G : List GEdge) (m : VEdge) : Bool :=
  match m.sub_path with
  | s :: t :: rest =>
      decide (s = m.src) && decide ((s :: t :: rest).getLast? = some m.tgt) &&
        adjChain G (s :: t :: rest)
  | _ => false

/-- The `nx.eulerian_circuit` contract, checkable on the finite support:
the circuit lists each vertex pair exactly as many times as `copy` has
parallel edges between the pair — it crosses every copy edge exactly
once.  Pairs outside the support occur on neither side. -/
def countsMatch (G : List GEdge) (M : List VEdge)
    (E : List (Nat × Nat)) : Bool :=
  (E ++ G.map (fun e => (e.src, e.tgt)) ++ M.map fun m => (m.src, m.tgt)).all
    fun p => E.count p = (copyParallel G M p.1 p.2).length

/-- Canonical prefix-true visited flags: the first `c` of `n` flags set. -/
def tf (c n : Nat) : List Bool :=
  List.replicate c true ++ List.replicate (n - c) false

/-- The visited state after some prefix of the circuit: each pair's flag
list is a true-prefix of the length of its parallel edge list. -/
def visOf (G : List GEdge) (M : List VEdge) (c : Nat × Nat → Nat) :
    Nat × Nat → List Bool :=
  fun p => tf (c p) (copyParallel G M p.1 p.2).length

/-- First entry's source vertex. -/
def headSrc (l : List (Nat × Nat × Nat)) : Option Nat :=
  l.head?.map fun x => x.1

/-- Last entry's target vertex. -/
def lastTgt (l : List (Nat × Nat × Nat)) : Option Nat :=
  l.getLast?.map fun x => x.2.1

end Sprockets

namespace Sprockets

/-! ## Theorems -/

/-! ### C1: the qualifier contract on `UniqueString` / `UniqueInt` -/

/-- **C1.** The spec and the `Qualifier` docstring in `stl/lib.py` (lines
184-190) require `q.Validate(q.Generate(*a), *a) == True` at any point of
the instance's lifetime.  The shipped `UniqueString` and `UniqueInt`
violate it already on a fresh instance: `Generate` records the produced
value in `used_values`, so the subsequent `Validate` finds it used and
returns `False`.  This theorem evaluates the code at that failing input. -/
theorem uniqueGenerateThenValidateFalse :
    (UniqueString.Generate UniqueString.init =
      some ("unique-0", ⟨1, ["unique-0"]⟩) ∧
     (UniqueString.Validate ⟨1, ["unique-0"]⟩ "unique-0").1 = false) ∧
    (UniqueInt.Generate UniqueInt.init = some (0, ⟨1, [0]⟩) ∧
     (UniqueInt.Validate ⟨1, [0]⟩ 0).1 = false) := by
  constructor
  · constructor
    · rfl
    · decide
  · constructor
    · rfl
    · decide

/-! ### C4: the vertex/transition match test -/

theorem pyProduct_any_all {α : Type} (p : α → Bool) (gs : List (List α)) :
    ((pyProduct gs).any fun c => c.all p) = gs.all fun g => g.any p := by
  induction gs with
  | nil => simp [pyProduct]
  | cons g gs ih =>
      rw [List.all_cons, ← ih, Bool.eq_iff_iff, Bool.and_eq_true]
      simp only [pyProduct, List.any_eq_true, List.mem_flatMap,
        List.mem_map, List.all_eq_true]
      constructor
      · rintro ⟨c, ⟨x, hx, c', hc', rfl⟩, hall⟩
        exact ⟨⟨x, hx, hall _ (List.mem_cons_self _ _)⟩,
          c', hc', fun a ha => hall _ (List.mem_cons_of_mem _ ha)⟩
      · rintro ⟨⟨x, hx, hpx⟩, c, hc, hall⟩
        refine ⟨x :: c, ⟨x, hx, c, hc, rfl⟩, fun a ha => ?_⟩
        rcases List.mem_cons.mp ha with rfl | ha
        · exact hpx
        · exact hall _ ha

/-- **C4.** `StateVertex._MatchWithTransition` accepts a transition at a
vertex iff every option group of its `pre_states` contains at least one
option compatible with the vertex, where an option is incompatible exactly
when the vertex holds the same resolved state with a different value
(`_MatchWithState`); a state absent from the vertex is vacuously
compatible. -/
theorem matchWithTransition_iff_groups {S V : Type} [DecidableEq S]
    [DecidableEq V] (stateList : List (SV S V))
    (preStates : List (List (SV S V))) :
    StateVertex.MatchWithTransition stateList preStates =
      preStates.all fun g => g.any (StateVertex.MatchWithState stateList) := by
  unfold StateVertex.MatchWithTransition
  exact pyProduct_any_all _ _

/-! ### C9: resolution idempotence -/

theorem transition_eqb_refl {P L S E X : Type} [DecidableEq P]
    [DecidableEq L] [DecidableEq S] [DecidableEq E] [DecidableEq X]
    (t : Transition P L S E X) : t.eqb t = true := by
  simp [Transition.eqb]

/-- **C9.** Resolving an already-resolved transition (`params` empty and
`expand` null) returns an equal transition, in any environment and for any
resolved-parameter map: `Resolve` short-circuits with `return self`, and
`Transition.__eq__` is reflexive. -/
theorem resolve_resolved_eq {P L S E X Env RP : Type} [DecidableEq P]
    [DecidableEq L] [DecidableEq S] [DecidableEq E] [DecidableEq X]
    (resolveRest : Transition P L S E X → Env → RP → Transition P L S E X)
    (t : Transition P L S E X) (env : Env) (rp : RP)
    (h : t.IsResolved = true) :
    (Transition.Resolve resolveRest t env rp).eqb t = true := by
  rw [Transition.Resolve, h]
  simp [transition_eqb_refl]

/-- Witness for C9 at a concrete resolved transition over string
components. -/
theorem resolve_resolved_eq_witness :
    (Transition.Resolve
        (fun (t : Transition String String String String String)
            (_ : Unit) (_ : Unit) => t)
        ⟨"tDone", [], ["v"], [["a"]], ["e"], ["b"], [], none⟩ () ()).eqb
      ⟨"tDone", [], ["v"], [["a"]], ["e"], ["b"], [], none⟩ = true :=
  resolve_resolved_eq
    (fun (t : Transition String String String String String)
        (_ : Unit) (_ : Unit) => t)
    ⟨"tDone", [], ["v"], [["a"]], ["e"], ["b"], [], none⟩ () () (by decide)

/-! ### C10: `Transition.Run` aborts only on the literal `False` -/

/-- **C10.** `Transition.Run` executes its events in order and returns
`False` exactly when some event's result *is* the literal `False`; the
failing event's successors are skipped (the invoked prefix is the run up
to and including the first literal-`False` event), while `None`, `0`, an
empty string or any other non-`False` result counts as success. -/
theorem transition_run_spec {α : Type} (run : α → Transition.PyRet)
    (events : List α) :
    (Transition.RunTrace run events).1 =
      !(events.map run).any Transition.isLitFalse ∧
    (Transition.RunTrace run events).2 =
      (events.takeWhile (fun e => !Transition.isLitFalse (run e))) ++
        (events.dropWhile (fun e => !Transition.isLitFalse (run e))).take 1 := by
  induction events with
  | nil => simp [Transition.RunTrace]
  | cons e es ih =>
      by_cases h : Transition.isLitFalse (run e)
      · simp [Transition.RunTrace, h, List.takeWhile_cons, List.dropWhile_cons]
      · simp only [Transition.RunTrace, h, Bool.false_eq_true, if_false,
          List.map_cons, List.any_cons, Bool.or_eq_true]
        refine ⟨?_, ?_⟩
        · simp [ih.1, h]
        · simp [List.takeWhile_cons, List.dropWhile_cons, h, ih.2]

/-! ### C6: the key/value encoding example -/

/-- **C6.** For the three-field message of the claim,
`SerializeToString({request_id: 10, data: "dummy_data", broadcast: true})`
produces exactly `"ri=10,da=dummy_data,br=True"`, and `ParseFromString` of
that string rebuilds exactly the original field map (hence in particular a
map equal to it order-insensitively). -/
theorem keyValueEncoding_roundtrip :
    KeyValueEncoding.SerializeToString KeyValueEncoding.exValues
        KeyValueEncoding.exFields = some "ri=10,da=dummy_data,br=True" ∧
    KeyValueEncoding.ParseFromString "ri=10,da=dummy_data,br=True"
        KeyValueEncoding.exFields = some KeyValueEncoding.exValues := by
  constructor
  · rfl
  · decide

/-! ### C5: parser error classification -/

theorem find?_cons_eq {α : Type} (p : α → Bool) (a : α) (l : List α) :
    (a :: l).find? p = if p a then some a else l.find? p := by
  by_cases h : p a
  · simp [List.find?_cons_of_pos, h]
  · simp [List.find?_cons_of_neg, h]

/-- **C5 counterexample.** On the scenario-S5 source
`module foo\nconst int a = 1;` the handler does classify the abort (with
its symbol stack ending `MODULE NAME`) as error id 201 with message
`Missing semicolon.` — but the reported position, which
`ParserErrorHandler.GetError` derives from `parser.symstack[-1]`
(`stl/error_handler.py` lines 180-181), is the column span of the stack's
top token `foo` (0-based columns 6-8), not the span that the same column
arithmetic gives for the token `const` (0-based columns 0-4 of its line).
The claim's "position pointing at the token `const`" is therefore false
on the code. -/
theorem s5ReportedPosition_not_const :
    GetErrorInfo s5SymStackTypes = some (201, "Missing semicolon.") ∧
    GetErrorPositionCols s5Source s5FinalToken = (6, 8) ∧
    GetErrorPositionCols s5Source s5ConstToken = (0, 4) ∧
    GetErrorPositionCols s5Source s5FinalToken ≠
      GetErrorPositionCols s5Source s5ConstToken := by
  refine ⟨by decide, by decide, by decide, by decide⟩

/-- **C5 (amended).** `ParserErrorHandler.GetError` classifies a
malformed input by its parser symbol stack: it always reports the *first*
error of the prioritized `_ALL_PARSER_ERRORS` list whose pattern matches,
so any stack matching a documented pattern receives that pattern's
documented id (201, 301, 302, 303, 202 in priority order, 200 as
catch-all).  In particular, for the scenario-S5 source
`module foo\nconst int a = 1;` the modelled `StlParser` stops with symbol
stack `$end MODULE NAME`, which the handler classifies as error id 201
with message `Missing semicolon.`, the reported position being computed
from the last symbol-stack token `foo` (0-based columns 6-8), not from
the lookahead token `const`. -/
theorem getError_classification_amended :
    (∀ s : List String,
      GetErrorInfo s = some (
        if missingSemicolon.Matches s then
          (201, missingSemicolon.error_msg)
        else if missingPostStates.Matches s then
          (301, missingPostStates.error_msg)
        else if missingPreStates.Matches s then
          (302, missingPreStates.error_msg)
        else if emptyPreStates.Matches s then
          (303, emptyPreStates.error_msg)
        else if missingClosingCurlyBrace.Matches s then
          (202, missingClosingCurlyBrace.error_msg)
        else (200, unknownParserError.error_msg))) ∧
    GetErrorInfo s5SymStackTypes = some (201, "Missing semicolon.") ∧
    GetErrorPositionCols s5Source s5FinalToken = (6, 8) := by
  refine ⟨fun s => ?_, ?_, by decide⟩
  · rw [GetErrorInfo, allParserErrors, find?_cons_eq, find?_cons_eq,
      find?_cons_eq, find?_cons_eq, find?_cons_eq, find?_cons_eq]
    have hcatch : unknownParserError.Matches s = true := rfl
    rw [hcatch]
    split_ifs <;> first | rfl | (exact absurd rfl (by assumption))
  · decide

/-! ### C3: the executor's returned boolean -/

theorem rerouteStep_done {env : ExecEnv} {edge : EdgeId} {st : ExecState}
    {b : Bool} {tr : List Bool} {ab : Bool}
    (h : rerouteStep env edge st = .done b tr ab) :
    b = st.success ∧ tr = st.trace ∧ ab = true := by
  unfold rerouteStep at h
  cases hb : buildPathStack env st.weight
      (env.sp st.weight (env.errv edge) edge.2.1) with
  | crash => rw [hb] at h; cases h
  | abort =>
      rw [hb] at h
      injection h with h1 h2 h3
      exact ⟨h1.symm, h2.symm, h3.symm⟩
  | path l => rw [hb] at h; cases h

theorem rerouteStep_next {env : ExecEnv} {edge : EdgeId} {st st' : ExecState}
    (h : rerouteStep env edge st = .next st') :
    st'.success = st.success ∧ st'.trace = st.trace ∧
      st'.weight = st.weight := by
  unfold rerouteStep at h
  cases hb : buildPathStack env st.weight
      (env.sp st.weight (env.errv edge) edge.2.1) with
  | crash => rw [hb] at h; cases h
  | abort => rw [hb] at h; cases h
  | path l =>
      rw [hb] at h
      injection h with h1
      rw [← h1]
      exact ⟨rfl, rfl, rfl⟩

theorem traverse_invariant (env : ExecEnv) :
    ∀ (fuel : Nat) (st : ExecState),
      st.success = st.trace.all id →
      (st.success = true → ∀ e, st.weight e ≠ ⊤) →
      ∀ b tr ab, traverse env fuel st = some (b, tr, ab) →
        b = tr.all id ∧ (ab = true → b = false) := by
  intro fuel
  induction fuel with
  | zero =>
      intro st h1 h2 b tr ab h
      rw [traverse] at h
      cases h
  | succ n ih =>
      intro st h1 h2 b tr ab h
      rw [traverse] at h
      cases hstack : st.stack with
      | nil =>
          rw [hstack] at h
          simp only [] at h
          injection h with h'
          injection h' with hb h'
          injection h' with htr hab
          subst hb; subst htr; subst hab
          exact ⟨h1, fun hab' => by cases hab'⟩
      | cons edge rest =>
          rw [hstack] at h
          simp only [] at h
          by_cases hw : st.weight edge ≠ ⊤
          · rw [if_pos hw] at h
            by_cases hr : env.runO st.trace.length edge
            · rw [if_pos hr] at h
              refine ih _ ?_ ?_ b tr ab h
              · simp [h1]
              · exact fun hs => h2 hs
            · rw [if_neg hr] at h
              cases hre : rerouteStep env edge
                  { stack := rest,
                    weight := Function.update st.weight edge ⊤,
                    success := false, trace := st.trace ++ [false] } with
              | crash => rw [hre] at h; cases h
              | done b' tr' ab' =>
                  rw [hre] at h
                  obtain ⟨hb', htr', hab'⟩ := rerouteStep_done hre
                  injection h with h'
                  injection h' with hb h'
                  injection h' with htr hab
                  subst hb; subst htr; subst hab
                  subst hb'; subst htr'; subst hab'
                  refine ⟨by simp, fun _ => rfl⟩
              | next st' =>
                  rw [hre] at h
                  obtain ⟨hs', ht', hw'⟩ := rerouteStep_next hre
                  refine ih st' ?_ ?_ b tr ab h
                  · rw [hs', ht']; simp
                  · intro hcon
                    rw [hs'] at hcon
                    cases hcon
          · rw [if_neg hw] at h
            have hsf : st.success = false := by
              cases hsucc : st.success
              · rfl
              · exact absurd (by simpa using hw) (h2 hsucc edge)
            cases hre : rerouteStep env edge { st with stack := rest } with
            | crash => rw [hre] at h; cases h
            | done b' tr' ab' =>
                rw [hre] at h
                obtain ⟨hb', htr', hab'⟩ := rerouteStep_done hre
                injection h with h'
                injection h' with hb h'
                injection h' with htr hab
                subst hb; subst htr; subst hab
                subst hb'; subst htr'; subst hab'
                simp only [] at *
                refine ⟨?_, fun _ => hsf⟩
                rw [hsf] at h1 ⊢
                exact h1
            | next st' =>
                rw [hre] at h
                obtain ⟨hs', ht', hw'⟩ := rerouteStep_next hre
                refine ih st' ?_ ?_ b tr ab h
                · rw [hs', ht']; exact h1
                · intro hcon
                  rw [hs'] at hcon
                  simp only [] at hcon
                  rw [hsf] at hcon
                  cases hcon

/-- **C3.** `TraverseGraph` (started with all edge weights finite, as the
graph builder guarantees with `weight=1`) returns `true` iff no
`transition.Run()` invocation of the walk returned `False`: the returned
boolean equals the conjunction of the recorded run results, so a single
failure makes the final result `false` even if recovery succeeds; and
whenever the run aborts because a recovery step's minimum-weight parallel
edge has weight `+∞`, the returned value is `false`. -/
theorem traverseGraph_success_iff (env : ExecEnv) (fuel : Nat)
    (circuit : List EdgeId) (w0 : EdgeId → ℕ∞)
    (h0 : ∀ e, w0 e ≠ ⊤) (b : Bool) (tr : List Bool) (ab : Bool)
    (h : traverse env fuel ⟨circuit, w0, true, []⟩ = some (b, tr, ab)) :
    (b = true ↔ tr.all id = true) ∧ (ab = true → b = false) := by
  have hmain := traverse_invariant env fuel ⟨circuit, w0, true, []⟩ rfl
    (fun _ => h0) b tr ab h
  exact ⟨by rw [hmain.1], hmain.2⟩

/-- Witness for C3: a one-edge circuit whose transition fails; recovery
immediately hits the now-infinite edge and the run aborts with `false`. -/
theorem traverseGraph_success_iff_witness :
    (∀ e : EdgeId, (fun _ : EdgeId => (1 : ℕ∞)) e ≠ ⊤) ∧
    traverse failEnv 1 ⟨[(0, 0, 0)], fun _ => 1, true, []⟩ =
      some (false, [false], true) ∧
    ((false = true ↔ ([false].all id) = true) ∧ (true = true → false = false)) :=
  ⟨fun _ => by simp, by rfl,
   traverseGraph_success_iff failEnv 1 [(0, 0, 0)] (fun _ => 1)
     (fun _ => by simp) false [false] true (by rfl)⟩

/-! ### C7: the strong-connectivity guard -/

theorem mem_succs {G : MDGraph} {y x : Nat} :
    x ∈ succs G y ↔ (y, x) ∈ G.edges := by
  simp only [succs, List.mem_map, List.mem_filter, decide_eq_true_eq]
  constructor
  · rintro ⟨⟨a, b⟩, ⟨hm, rfl⟩, rfl⟩
    exact hm
  · intro h
    exact ⟨(y, x), ⟨h, rfl⟩, rfl⟩

theorem mem_closureStep {G : MDGraph} {s : List Nat} {x : Nat} :
    x ∈ closureStep G s ↔ x ∈ s ∨ ∃ y ∈ s, (y, x) ∈ G.edges := by
  simp [closureStep, List.mem_dedup, List.mem_append, List.mem_flatMap,
    mem_succs]

theorem subset_closureStep {G : MDGraph} {s : List Nat} :
    ∀ x ∈ s, x ∈ closureStep G s :=
  fun x hx => mem_closureStep.mpr (Or.inl hx)

theorem closureStep_mono {G : MDGraph} {s t : List Nat}
    (h : ∀ x ∈ s, x ∈ t) : ∀ x ∈ closureStep G s, x ∈ closureStep G t := by
  intro x hx
  rcases mem_closureStep.mp hx with hx | ⟨y, hy, he⟩
  · exact mem_closureStep.mpr (Or.inl (h x hx))
  · exact mem_closureStep.mpr (Or.inr ⟨y, h y hy, he⟩)

theorem closureN_mono {G : MDGraph} :
    ∀ (n : Nat) {s t : List Nat}, (∀ x ∈ s, x ∈ t) →
      ∀ x ∈ closureN G n s, x ∈ closureN G n t := by
  intro n
  induction n with
  | zero => intro s t h; exact h
  | succ n ih => intro s t h; exact ih (closureStep_mono h)

theorem subset_closureN {G : MDGraph} :
    ∀ (n : Nat) (s : List Nat), ∀ x ∈ s, x ∈ closureN G n s := by
  intro n
  induction n with
  | zero => intro s x hx; exact hx
  | succ n ih =>
      intro s x hx
      exact ih (closureStep G s) x (subset_closureStep x hx)

theorem closureN_congr {G : MDGraph} (n : Nat) {s t : List Nat}
    (h : ∀ x, x ∈ s ↔ x ∈ t) :
    ∀ x, x ∈ closureN G n s ↔ x ∈ closureN G n t :=
  fun x => ⟨fun hx => closureN_mono n (fun y hy => (h y).mp hy) x hx,
    fun hx => closureN_mono n (fun y hy => (h y).mpr hy) x hx⟩

theorem closureStep_of_closed {G : MDGraph} {t : List Nat}
    (hc : EdgeClosed G t) : ∀ z, z ∈ closureStep G t ↔ z ∈ t := by
  intro z
  constructor
  · intro hz
    rcases mem_closureStep.mp hz with h | ⟨y, hy, he⟩
    · exact h
    · exact hc y hy z he
  · exact subset_closureStep z

theorem closureN_of_closed {G : MDGraph} {t : List Nat}
    (hc : EdgeClosed G t) : ∀ (n : Nat) (x : Nat),
      x ∈ closureN G n t ↔ x ∈ t := by
  intro n
  induction n with
  | zero => intro x; exact Iff.rfl
  | succ n ih =>
      intro x
      have h1 : x ∈ closureN G n (closureStep G t) ↔ x ∈ closureN G n t :=
        closureN_congr n (closureStep_of_closed hc) x
      exact h1.trans (ih x)

theorem edgeClosed_congr {G : MDGraph} {s t : List Nat}
    (h : ∀ x, x ∈ s ↔ x ∈ t) (hc : EdgeClosed G s) : EdgeClosed G t :=
  fun y hy x he => (h x).mp (hc y ((h y).mpr hy) x he)

theorem closureN_sound {G : MDGraph} {u : Nat} :
    ∀ (n : Nat) (s : List Nat), (∀ x ∈ s, Reach G u x) →
      ∀ x ∈ closureN G n s, Reach G u x := by
  intro n
  induction n with
  | zero => intro s h x hx; exact h x hx
  | succ n ih =>
      intro s h x hx
      refine ih (closureStep G s) ?_ x hx
      intro z hz
      rcases mem_closureStep.mp hz with hz | ⟨y, hy, he⟩
      · exact h z hz
      · exact Relation.ReflTransGen.tail (h y hy) he

theorem closed_of_fuel (G : MDGraph)
    (hwf : ∀ e ∈ G.edges, e.1 ∈ G.nodes ∧ e.2 ∈ G.nodes) :
    ∀ (n : Nat) (s : List Nat), s.Nodup → (∀ x ∈ s, x ∈ G.nodes) →
      G.nodes.dedup.length ≤ n + s.length →
      EdgeClosed G (closureN G n s) := by
  intro n
  induction n with
  | zero =>
      intro s hnd hsub hcard
      have hcard' : G.nodes.dedup.length ≤ s.length := by omega
      have hsubf : s.toFinset ⊆ G.nodes.toFinset := by
        intro a ha
        exact List.mem_toFinset.mpr (hsub a (List.mem_toFinset.mp ha))
      have hcardle : G.nodes.toFinset.card ≤ s.toFinset.card := by
        calc G.nodes.toFinset.card = G.nodes.dedup.length :=
              List.card_toFinset G.nodes
          _ ≤ s.length := hcard'
          _ = s.toFinset.card := (List.toFinset_card_of_nodup hnd).symm
      have heq : s.toFinset = G.nodes.toFinset :=
        Finset.eq_of_subset_of_card_le hsubf hcardle
      intro y hy x he
      have hxf : x ∈ G.nodes.toFinset := List.mem_toFinset.mpr (hwf _ he).2
      rw [← heq] at hxf
      exact List.mem_toFinset.mp hxf
  | succ n ih =>
      intro s hnd hsub hcard
      by_cases hc : EdgeClosed G s
      · have hseteq : ∀ x, x ∈ closureN G (n + 1) s ↔ x ∈ s := by
          intro x
          have h1 : x ∈ closureN G n (closureStep G s) ↔ x ∈ closureN G n s :=
            closureN_congr n (closureStep_of_closed hc) x
          exact h1.trans (closureN_of_closed hc n x)
        exact edgeClosed_congr (fun x => (hseteq x).symm) hc
      · rw [EdgeClosed] at hc
        push_neg at hc
        obtain ⟨y, hy, x, he, hxs⟩ := hc
        have hxstep : x ∈ closureStep G s :=
          mem_closureStep.mpr (Or.inr ⟨y, hy, he⟩)
        have hndstep : (closureStep G s).Nodup := List.nodup_dedup _
        have hsubstep : ∀ z ∈ closureStep G s, z ∈ G.nodes := by
          intro z hz
          rcases mem_closureStep.mp hz with hz | ⟨w, _, hwz⟩
          · exact hsub z hz
          · exact (hwf _ hwz).2
        have hgrow : s.length + 1 ≤ (closureStep G s).length := by
          have h1 : insert x s.toFinset ⊆ (closureStep G s).toFinset := by
            intro a ha
            rcases Finset.mem_insert.mp ha with rfl | ha
            · exact List.mem_toFinset.mpr hxstep
            · exact List.mem_toFinset.mpr
                (subset_closureStep a (List.mem_toFinset.mp ha))
          have h2 : (insert x s.toFinset).card = s.toFinset.card + 1 :=
            Finset.card_insert_of_not_mem (fun hmem =>
              hxs (List.mem_toFinset.mp hmem))
          calc s.length + 1 = s.toFinset.card + 1 := by
                rw [List.toFinset_card_of_nodup hnd]
            _ = (insert x s.toFinset).card := h2.symm
            _ ≤ (closureStep G s).toFinset.card := Finset.card_le_card h1
            _ = (closureStep G s).length :=
                List.toFinset_card_of_nodup hndstep
      -- modelling note: the (n+1)-round closure is the n-round closure
      -- of the strictly larger one-step closure
        exact ih (closureStep G s) hndstep hsubstep (by omega)

theorem reachList_closed (G : MDGraph)
    (hwf : ∀ e ∈ G.edges, e.1 ∈ G.nodes ∧ e.2 ∈ G.nodes) (v : Nat)
    (hv : v ∈ G.nodes) : EdgeClosed G (reachList G v) := by
  apply closed_of_fuel G hwf G.nodes.length [v] (by simp)
    (by simpa using hv)
  have := List.Sublist.length_le (List.dedup_sublist G.nodes)
  simp only [List.length_cons, List.length_nil]
  omega

theorem mem_reachList_iff (G : MDGraph)
    (hwf : ∀ e ∈ G.edges, e.1 ∈ G.nodes ∧ e.2 ∈ G.nodes) {u v : Nat}
    (hu : u ∈ G.nodes) : v ∈ reachList G u ↔ Reach G u v := by
  constructor
  · intro h
    refine closureN_sound _ _ ?_ v h
    intro x hx
    rcases List.mem_singleton.mp hx with rfl
    exact Relation.ReflTransGen.refl
  · intro h
    have hclosed := reachList_closed G hwf u hu
    have humem : u ∈ reachList G u :=
      subset_closureN _ _ u (List.mem_singleton.mpr rfl)
    induction h with
    | refl => exact humem
    | tail _ he ih => exact hclosed _ ih _ he

theorem isStronglyConnected_iff (G : MDGraph)
    (hwf : ∀ e ∈ G.edges, e.1 ∈ G.nodes ∧ e.2 ∈ G.nodes) :
    isStronglyConnected G = true ↔
      ∀ u ∈ G.nodes, ∀ v ∈ G.nodes, Reach G u v := by
  unfold isStronglyConnected
  simp only [List.all_eq_true, decide_eq_true_eq]
  constructor
  · intro h u hu v hv
    exact (mem_reachList_iff G hwf hu).mp (h u hu v hv)
  · intro h u hu v hv
    exact (mem_reachList_iff G hwf hu).mpr (h u hu v hv)

/-- **C7.** `MinEdgeCoverCircuit` raises its `RuntimeError` if and only
if the input multigraph is not strongly connected: the
`nx.is_strongly_connected` check is the function's first action, before
any planning work, and on a strongly connected graph the guard passes
without such an error.  (The graph builder guarantees the hypotheses:
it emits a non-empty vertex list and edges between listed vertices; nx
treats the null graph as a separate `NetworkXPointlessConcept`
exception, outside this claim.) -/
theorem minEdgeCoverCircuit_guard_iff (G : MDGraph) (hne : G.nodes ≠ [])
    (hwf : ∀ e ∈ G.edges, e.1 ∈ G.nodes ∧ e.2 ∈ G.nodes) :
    ((∃ msg, MinEdgeCoverCircuitGuard G = .error msg) ↔
      ¬ ∀ u ∈ G.nodes, ∀ v ∈ G.nodes, Reach G u v) := by
  rw [← isStronglyConnected_iff G hwf]
  unfold MinEdgeCoverCircuitGuard
  by_cases h : isStronglyConnected G
  · simp [h]
  · simp [h]

/-- Witness for C7 on the two-vertex cycle, where the guard passes. -/
theorem minEdgeCoverCircuit_guard_iff_witness :
    (⟨[0, 1], [(0, 1), (1, 0)]⟩ : MDGraph).nodes ≠ [] ∧
    ((∃ msg,
        MinEdgeCoverCircuitGuard ⟨[0, 1], [(0, 1), (1, 0)]⟩ = .error msg) ↔
      ¬ ∀ u ∈ (⟨[0, 1], [(0, 1), (1, 0)]⟩ : MDGraph).nodes,
        ∀ v ∈ (⟨[0, 1], [(0, 1), (1, 0)]⟩ : MDGraph).nodes,
          Reach ⟨[0, 1], [(0, 1), (1, 0)]⟩ u v) :=
  ⟨by decide, minEdgeCoverCircuit_guard_iff ⟨[0, 1], [(0, 1), (1, 0)]⟩
    (by decide) (by decide)⟩

/-! ### C2: the planner's expansion -/

theorem tf_succ (c n : Nat) : tf (c + 1) n = true :: tf c (n - 1) := by
  have h : n - (c + 1) = n - 1 - c := by omega
  simp [tf, List.replicate_succ, h]

theorem firstFalse_tf (c n : Nat) :
    firstFalse (tf c n) = if c < n then some c else none := by
  induction c generalizing n with
  | zero =>
      cases n with
      | zero => simp [tf, firstFalse]
      | succ m => simp [tf, firstFalse, List.replicate_succ]
  | succ c ih =>
      rw [tf_succ]
      simp only [firstFalse, if_pos rfl]
      rw [ih (n - 1)]
      by_cases h : c < n - 1
      · have h2 : c + 1 < n := by omega
        rw [if_pos h, if_pos h2]
        rfl
      · have h2 : ¬ (c + 1 < n) := by omega
        rw [if_neg h, if_neg h2]
        rfl

theorem tf_set (c n : Nat) (h : c < n) :
    (tf c n).set c true = tf (c + 1) n := by
  induction c generalizing n with
  | zero =>
      cases n with
      | zero => omega
      | succ m =>
          simp [tf, List.replicate_succ]
  | succ c ih =>
      cases n with
      | zero => omega
      | succ m =>
          rw [tf_succ, List.set_cons_succ]
          simp only [Nat.add_sub_cancel]
          rw [ih m (by omega), tf_succ (c + 1) (m + 1)]
          simp only [Nat.add_sub_cancel]

theorem pickIdx_tf (c n : Nat) (h : c < n) : pickIdx (tf c n) = c := by
  simp [pickIdx, firstFalse_tf, h]

theorem tf_zero (n : Nat) : tf 0 n = List.replicate n false := by
  simp [tf]

theorem map_false_eq_tf {α : Type} (l : List α) :
    (l.map fun _ => false) = tf 0 l.length := by
  rw [tf_zero]
  induction l with
  | nil => rfl
  | cons a l ih => simp [List.replicate_succ, ih]

theorem chainedTriples_cons (a : Nat × Nat × Nat)
    (l : List (Nat × Nat × Nat)) (hl : chainedTriples l = true)
    (hlink : ∀ b, l.head? = some b → a.2.1 = b.1) :
    chainedTriples (a :: l) = true := by
  cases l with
  | nil => rfl
  | cons b rest =>
      simp only [chainedTriples, Bool.and_eq_true, decide_eq_true_eq]
      exact ⟨hlink b rfl, hl⟩

theorem chainedTriples_of_cons {a : Nat × Nat × Nat}
    {l : List (Nat × Nat × Nat)} (h : chainedTriples (a :: l) = true) :
    chainedTriples l = true := by
  cases l with
  | nil => rfl
  | cons b rest =>
      simp only [chainedTriples, Bool.and_eq_true] at h
      exact h.2

theorem chainedTriples_append (l₁ l₂ : List (Nat × Nat × Nat))
    (h1 : chainedTriples l₁ = true) (h2 : chainedTriples l₂ = true)
    (hlink : ∀ a b, l₁.getLast? = some a → l₂.head? = some b →
      a.2.1 = b.1) : chainedTriples (l₁ ++ l₂) = true := by
  induction l₁ with
  | nil => simpa using h2
  | cons a l₁ ih =>
      cases hl₁ : l₁ with
      | nil =>
          subst hl₁
          simp only [List.nil_append, List.cons_append]
          apply chainedTriples_cons a l₂ h2
          intro b hb
          exact hlink a b rfl hb
      | cons a' l₁' =>
          subst hl₁
          simp only [List.cons_append]
          have h1' : chainedTriples (a' :: l₁') = true :=
            chainedTriples_of_cons h1
          have hlink' : ∀ x b, (a' :: l₁').getLast? = some x →
              l₂.head? = some b → x.2.1 = b.1 := by
            intro x b hx hb
            apply hlink x b ?_ hb
            rw [List.getLast?_cons_cons]
            exact hx
          apply chainedTriples_cons
          · exact ih h1' hlink'
          · intro b hb
            simp only [List.cons_append, List.head?_cons,
              Option.some.injEq] at hb
            subst hb
            simp only [chainedTriples, Bool.and_eq_true,
              decide_eq_true_eq] at h1
            exact h1.1

theorem headSrc_cons (a : Nat × Nat × Nat) (l : List (Nat × Nat × Nat)) :
    headSrc (a :: l) = some a.1 := rfl

theorem headSrc_append_left (l₁ l₂ : List (Nat × Nat × Nat))
    (h : l₁ ≠ []) : headSrc (l₁ ++ l₂) = headSrc l₁ := by
  cases l₁ with
  | nil => exact absurd rfl h
  | cons a l => rfl

theorem lastTgt_append_right (l₁ l₂ : List (Nat × Nat × Nat))
    (h : l₂ ≠ []) : lastTgt (l₁ ++ l₂) = lastTgt l₂ := by
  unfold lastTgt
  rw [List.getLast?_append_of_ne_nil _ h]

theorem lastTgt_cons_of_ne_nil (a : Nat × Nat × Nat)
    {l : List (Nat × Nat × Nat)} (h : l ≠ []) :
    lastTgt (a :: l) = lastTgt l := by
  cases l with
  | nil => exact absurd rfl h
  | cons b rest => unfold lastTgt; rw [List.getLast?_cons_cons]

theorem expandPath_cons_cons (G : List GEdge) (s t : Nat)
    (rest : List Nat) :
    expandPath G (s :: t :: rest) =
      if ((parallelReal G s t).map (·.weight)).isEmpty = true then none
      else
        match expandPath G (t :: rest) with
        | none => none
        | some l =>
            some ((s, t,
              bestIndex ((parallelReal G s t).map (·.weight))) :: l) := rfl

theorem expandPath_ok (G : List GEdge) :
    ∀ (path : List Nat), 2 ≤ path.length → adjChain G path = true →
      ∃ l, expandPath G path = some l ∧ l ≠ [] ∧
        chainedTriples l = true ∧
        (∀ s, path.head? = some s → headSrc l = some s) ∧
        (∀ t, path.getLast? = some t → lastTgt l = some t) := by
  intro path
  induction path with
  | nil => intro h; simp at h
  | cons a rest ih =>
      cases rest with
      | nil => intro h; simp at h
      | cons b rest' =>
          intro _ hadj
          simp only [adjChain, Bool.and_eq_true] at hadj
          obtain ⟨hne, hadj'⟩ := hadj
          have hpne : parallelReal G a b ≠ [] := by
            intro hnil
            rw [hnil] at hne
            simp at hne
          have hwsne : ¬ (((parallelReal G a b).map (·.weight)).isEmpty
              = true) := by
            simp only [List.isEmpty_iff, List.map_eq_nil_iff]
            exact hpne
          cases rest' with
          | nil =>
              refine ⟨[(a, b,
                bestIndex ((parallelReal G a b).map (·.weight)))],
                ?_, by simp, rfl, ?_, ?_⟩
              · rw [expandPath_cons_cons, if_neg hwsne]
                rfl
              · intro s hs
                simp only [List.head?_cons, Option.some.injEq] at hs
                subst hs
                rfl
              · intro t ht
                simp only [List.getLast?_cons_cons] at ht
                have hb2 : (b :: ([] : List Nat)).getLast? = some b := rfl
                rw [hb2] at ht
                have ht' : b = t := Option.some.inj ht
                subst ht'
                rfl
          | cons cc rest'' =>
              obtain ⟨l, hl, hlne, hlch, hlhd, hllast⟩ :=
                ih (by simp) hadj'
              refine ⟨(a, b,
                bestIndex ((parallelReal G a b).map (·.weight))) :: l,
                ?_, by simp, ?_, ?_, ?_⟩
              · rw [expandPath_cons_cons, if_neg hwsne, hl]
              · apply chainedTriples_cons _ _ hlch
                intro x hx
                have hb := hlhd b rfl
                unfold headSrc at hb
                rw [hx] at hb
                simp only [Option.map_some', Option.some.injEq] at hb
                exact hb.symm
              · intro s hs
                simp only [List.head?_cons, Option.some.injEq] at hs
                subst hs
                rfl
              · intro t ht
                rw [List.getLast?_cons_cons] at ht
                rw [lastTgt_cons_of_ne_nil _ hlne]
                exact hllast t ht

theorem copyParallel_get?_lt (G : List GEdge) (M : List VEdge)
    (s t i : Nat) (h : i < (parallelReal G s t).length) :
    ∃ w, (copyParallel G M s t).get? i = some (.real w) := by
  unfold copyParallel
  rw [List.get?_append (by simpa using h)]
  rw [List.get?_map, List.get?_eq_get h]
  exact ⟨_, rfl⟩

theorem copyParallel_get?_ge (G : List GEdge) (M : List VEdge)
    (s t i : Nat) (hge : (parallelReal G s t).length ≤ i)
    (hlt : i < (copyParallel G M s t).length) :
    ∃ m ∈ M, m.src = s ∧ m.tgt = t ∧
      (copyParallel G M s t).get? i = some (.virt m.sub_path) := by
  unfold copyParallel at hlt ⊢
  rw [List.get?_append_right (by simpa using hge)]
  simp only [List.length_map]
  simp only [List.length_append, List.length_map] at hlt
  have hj : i - (parallelReal G s t).length <
      (M.filter fun m => m.src = s ∧ m.tgt = t).length := by omega
  rw [List.get?_map, List.get?_eq_get hj]
  set m := (M.filter fun m => m.src = s ∧ m.tgt = t).get ⟨_, hj⟩ with hm
  have hmem : m ∈ M.filter fun m => m.src = s ∧ m.tgt = t := by
    rw [hm]
    exact List.get_mem _ _ hj
  have hmm := List.mem_filter.mp hmem
  refine ⟨m, hmm.1, ?_, ?_, rfl⟩
  · exact (of_decide_eq_true hmm.2).1
  · exact (of_decide_eq_true hmm.2).2

theorem subPathOk_spec {G : List GEdge} {m : VEdge}
    (h : subPathOk G m = true) :
    2 ≤ m.sub_path.length ∧ m.sub_path.head? = some m.src ∧
      m.sub_path.getLast? = some m.tgt ∧ adjChain G m.sub_path = true := by
  unfold subPathOk at h
  cases hsp : m.sub_path with
  | nil => rw [hsp] at h; cases h
  | cons s rest =>
      cases rest with
      | nil => rw [hsp] at h; cases h
      | cons t rest' =>
          rw [hsp] at h
          simp only [Bool.and_eq_true, decide_eq_true_eq] at h
          obtain ⟨⟨h1, h2⟩, h3⟩ := h
          exact ⟨by simp, by rw [List.head?_cons, h1], h2, h3⟩

theorem visOf_update (G : List GEdge) (M : List VEdge)
    (c : Nat × Nat → Nat) (p : Nat × Nat)
    (hlt : c p < (copyParallel G M p.1 p.2).length) :
    Function.update (visOf G M c) p ((visOf G M c p).set (c p) true) =
      visOf G M (Function.update c p (c p + 1)) := by
  funext q
  by_cases hq : q = p
  · subst hq
    rw [Function.update_same]
    show (tf (c q) (copyParallel G M q.1 q.2).length).set (c q) true =
      tf (Function.update c q (c q + 1) q) (copyParallel G M q.1 q.2).length
    rw [Function.update_same, tf_set _ _ hlt]
  · rw [Function.update_noteq hq]
    show visOf G M c q =
      tf (Function.update c p (c p + 1) q) (copyParallel G M q.1 q.2).length
    rw [Function.update_noteq hq]
    rfl

theorem expandOne_canonical (G : List GEdge) (M : List VEdge)
    (hM : ∀ m ∈ M, subPathOk G m = true) (c : Nat × Nat → Nat)
    (p : Nat × Nat) (hlt : c p < (copyParallel G M p.1 p.2).length) :
    ∃ block, expandOne G M (visOf G M c) p =
        some (visOf G M (Function.update c p (c p + 1)), block) ∧
      block ≠ [] ∧ chainedTriples block = true ∧
      headSrc block = some p.1 ∧ lastTgt block = some p.2 ∧
      ((c p < (parallelReal G p.1 p.2).length ∧
          block = [(p.1, p.2, c p)]) ∨
        (parallelReal G p.1 p.2).length ≤ c p) := by
  have hpsne : ¬ ((copyParallel G M p.1 p.2).isEmpty = true) := by
    simp only [List.isEmpty_iff]
    intro h0
    rw [h0] at hlt
    simp at hlt
  have hvisp : visOf G M c p = tf (c p) (copyParallel G M p.1 p.2).length :=
    rfl
  have hpick : pickIdx (visOf G M c p) = c p := by
    rw [hvisp, pickIdx_tf _ _ hlt]
  have hset : (visOf G M c p).set (pickIdx (visOf G M c p)) true =
      (visOf G M c p).set (c p) true := by rw [hpick]
  unfold expandOne
  rw [if_neg hpsne, hpick]
  by_cases hreal : c p < (parallelReal G p.1 p.2).length
  · obtain ⟨w, hw⟩ := copyParallel_get?_lt G M p.1 p.2 (c p) hreal
    rw [hw]
    dsimp only
    rw [visOf_update G M c p hlt]
    exact ⟨[(p.1, p.2, c p)], rfl, by simp, rfl, rfl, rfl,
      Or.inl ⟨hreal, rfl⟩⟩
  · obtain ⟨m, hmM, hms, hmt, hw⟩ :=
      copyParallel_get?_ge G M p.1 p.2 (c p) (by omega) hlt
    rw [hw]
    obtain ⟨hlen2, hhd, hlast, hadj⟩ := subPathOk_spec (hM m hmM)
    obtain ⟨l, hl, hlne, hlch, hlhd, hllast⟩ :=
      expandPath_ok G m.sub_path hlen2 hadj
    dsimp only
    rw [hl]
    dsimp only
    rw [visOf_update G M c p hlt]
    refine ⟨l, rfl, hlne, hlch, ?_, ?_, Or.inr (by omega)⟩
    · rw [hlhd m.src hhd, hms]
    · rw [hllast m.tgt hlast, hmt]

theorem countsMatch_all {G : List GEdge} {M : List VEdge}
    {E : List (Nat × Nat)} (h : countsMatch G M E = true) :
    ∀ p : Nat × Nat, E.count p = (copyParallel G M p.1 p.2).length := by
  intro p
  unfold countsMatch at h
  rw [List.all_eq_true] at h
  by_cases hp : p ∈ E ++ G.map (fun e => (e.src, e.tgt)) ++
      M.map fun m => (m.src, m.tgt)
  · exact of_decide_eq_true (h p hp)
  · simp only [List.mem_append, not_or] at hp
    obtain ⟨⟨hpE, hpG⟩, hpM⟩ := hp
    have hcount0 : E.count p = 0 := List.count_eq_zero.mpr hpE
    have hreal : parallelReal G p.1 p.2 = [] := by
      unfold parallelReal
      rw [List.filter_eq_nil_iff]
      intro e he hdec
      apply hpG
      have h2 := of_decide_eq_true hdec
      refine List.mem_map.mpr ⟨e, he, ?_⟩
      cases p
      simp only [h2.1, h2.2]
    have hvirt : (M.filter fun m => m.src = p.1 ∧ m.tgt = p.2) = [] := by
      rw [List.filter_eq_nil_iff]
      intro m hm hdec
      apply hpM
      have h2 := of_decide_eq_true hdec
      refine List.mem_map.mpr ⟨m, hm, ?_⟩
      cases p
      simp only [h2.1, h2.2]
    unfold copyParallel
    rw [hreal, hvirt, hcount0]
    rfl

theorem expandCircuit_canonical (G : List GEdge) (M : List VEdge)
    (hM : ∀ m ∈ M, subPathOk G m = true) :
    ∀ (E : List (Nat × Nat)) (c : Nat × Nat → Nat),
      (∀ p, c p + E.count p = (copyParallel G M p.1 p.2).length) →
      ∃ res, expandCircuit G M (visOf G M c) E = some res ∧
        (∀ s t j, c (s, t) ≤ j → j < (parallelReal G s t).length →
          (s, t, j) ∈ res) ∧
        (E = [] → res = []) ∧
        (∀ p₀, E.head? = some p₀ → headSrc res = some p₀.1) ∧
        (∀ pl, E.getLast? = some pl → lastTgt res = some pl.2) ∧
        (chainedPairs E = true → chainedTriples res = true) := by
  intro E
  induction E with
  | nil =>
      intro c hc
      refine ⟨[], rfl, ?_, fun _ => rfl, ?_, ?_, fun _ => rfl⟩
      · intro s t j hcj hjlt
        exfalso
        have h1 := hc (s, t)
        have hle : (parallelReal G s t).length ≤
            (copyParallel G M s t).length := by
          unfold copyParallel
          simp
        simp only [List.count_nil] at h1
        omega
      · intro p₀ h0
        cases h0
      · intro pl h0
        cases h0
  | cons p rest ih =>
      intro c hc
      have hlt : c p < (copyParallel G M p.1 p.2).length := by
        have h1 := hc p
        rw [List.count_cons_self] at h1
        omega
      obtain ⟨block, hone, hbne, hbch, hbhd, hbl, hcase⟩ :=
        expandOne_canonical G M hM c p hlt
      have hc' : ∀ q, Function.update c p (c p + 1) q + rest.count q =
          (copyParallel G M q.1 q.2).length := by
        intro q
        by_cases hq : q = p
        · subst hq
          rw [Function.update_same]
          have h1 := hc q
          rw [List.count_cons_self] at h1
          omega
        · rw [Function.update_noteq hq]
          have h1 := hc q
          rw [List.count_cons_of_ne hq] at h1
          exact h1
      obtain ⟨res', hrec, hcov', hnil', hhd', hlast', hch'⟩ := ih _ hc'
      refine ⟨block ++ res', ?_, ?_, ?_, ?_, ?_, ?_⟩
      · rw [expandCircuit, hone]
        dsimp only
        rw [hrec]
      · intro s t j hcj hjlt
        by_cases hq : (s, t) = p
        · subst hq
          rcases hcase with ⟨hreal, hblock⟩ | hvirt
          · by_cases hj : j = c (s, t)
            · subst hj
              rw [hblock]
              apply List.mem_append_left
              exact List.mem_singleton.mpr rfl
            · apply List.mem_append_right
              apply hcov' s t j ?_ hjlt
              rw [Function.update_same]
              omega
          · exfalso
            dsimp only at hvirt
            omega
        · apply List.mem_append_right
          apply hcov' s t j ?_ hjlt
          rw [Function.update_noteq hq]
          exact hcj
      · intro h0; cases h0
      · intro p₀ hp₀
        simp only [List.head?_cons, Option.some.injEq] at hp₀
        subst hp₀
        rw [headSrc_append_left _ _ hbne]
        exact hbhd
      · intro pl hpl
        cases rest with
        | nil =>
            have hres' : res' = [] := hnil' rfl
            subst hres'
            simp only [List.append_nil]
            have hplp : pl = p := by
              have : (p :: ([] : List (Nat × Nat))).getLast? = some p := rfl
              rw [this] at hpl
              exact (Option.some.inj hpl).symm
            subst hplp
            exact hbl
        | cons q rest' =>
            rw [List.getLast?_cons_cons] at hpl
            have hres'ne : res' ≠ [] := by
              intro h0
              have h1 := hhd' q rfl
              rw [h0] at h1
              cases h1
            rw [lastTgt_append_right _ _ hres'ne]
            exact hlast' pl hpl
      · intro hchain
        cases rest with
        | nil =>
            have hres' : res' = [] := hnil' rfl
            subst hres'
            simpa using hbch
        | cons q rest' =>
            simp only [chainedPairs, Bool.and_eq_true,
              decide_eq_true_eq] at hchain
            obtain ⟨hpq, hchain'⟩ := hchain
            apply chainedTriples_append _ _ hbch (hch' hchain')
            intro x y hx hy
            have h1 : x.2.1 = p.2 := by
              unfold lastTgt at hbl
              rw [hx] at hbl
              simpa using hbl
            have h2 : y.1 = q.1 := by
              have h3 := hhd' q rfl
              unfold headSrc at h3
              rw [hy] at h3
              simpa using h3
            rw [h1, h2, hpq]

/-- **C2.** Given the library contracts for the external pieces of
`MinEdgeCoverCircuit` — the virtual edges `M` produced from the matching
each carry a concrete path between their endpoints, and the Eulerian
circuit `E` of the augmented graph is a chained walk starting at the
initial vertex that crosses each augmented edge exactly once — the
expansion phase returns a sequence of `(source, target, edge_index)`
triples in which every edge of the original multigraph appears at least
once, consecutive entries are chained, and the first entry's source is
the initial vertex. -/
theorem minEdgeCoverCircuit_expansion (G : List GEdge) (M : List VEdge)
    (E : List (Nat × Nat)) (v0 : Nat)
    (hcount : countsMatch G M E = true)
    (hM : M.all (subPathOk G) = true)
    (hchain : chainedPairs E = true)
    (hstart : E.head?.map Prod.fst = some v0) :
    ∃ res, MinEdgeCoverCircuitExpand G M E = some res ∧
      (∀ s t j, j < (parallelReal G s t).length → (s, t, j) ∈ res) ∧
      chainedTriples res = true ∧ headSrc res = some v0 := by
  have hM' : ∀ m ∈ M, subPathOk G m = true := by
    rw [List.all_eq_true] at hM
    exact hM
  have hc0 : ∀ p : Nat × Nat, (fun _ : Nat × Nat => 0) p + E.count p =
      (copyParallel G M p.1 p.2).length := by
    intro p
    simpa using countsMatch_all hcount p
  obtain ⟨res, hres, hcov, _, hhd, _, hch⟩ :=
    expandCircuit_canonical G M hM' E (fun _ => 0) hc0
  have hvis0 : (fun p : Nat × Nat =>
      (copyParallel G M p.1 p.2).map fun _ => false) =
      visOf G M (fun _ => 0) := by
    funext p
    rw [map_false_eq_tf]
    rfl
  obtain ⟨p₀, hp₀, hp₀v⟩ : ∃ p₀, E.head? = some p₀ ∧ p₀.1 = v0 := by
    cases E with
    | nil => cases hstart
    | cons a rest =>
        simp only [List.head?_cons, Option.map_some', Option.some.injEq]
          at hstart
        exact ⟨a, rfl, hstart⟩
  refine ⟨res, ?_, ?_, hch hchain, ?_⟩
  · rw [MinEdgeCoverCircuitExpand, hvis0]
    exact hres
  · intro s t j hj
    exact hcov s t j (Nat.zero_le j) hj
  · rw [hhd p₀ hp₀, hp₀v]

/-- Witness graph for C2: the spec's S4 instance — two parallel edges
`0 → 1` and one edge `1 → 0`, one virtual edge `1 → 0` with sub-path
`[1, 0]`, and the four-step Eulerian circuit from vertex 0. -/
def w2G : List GEdge := [⟨0, 1, 1⟩, ⟨0, 1, 1⟩, ⟨1, 0, 1⟩]

/-- Witness matching edges for C2. -/
def w2M : List VEdge := [⟨1, 0, [1, 0]⟩]

/-- Witness Eulerian circuit for C2. -/
def w2E : List (Nat × Nat) := [(0, 1), (1, 0), (0, 1), (1, 0)]

/-- Witness for C2 on the S4 instance. -/
theorem minEdgeCoverCircuit_expansion_witness :
    ∃ res, MinEdgeCoverCircuitExpand w2G w2M w2E = some res ∧
      (∀ s t j, j < (parallelReal w2G s t).length → (s, t, j) ∈ res) ∧
      chainedTriples res = true ∧ headSrc res = some 0 :=
  minEdgeCoverCircuit_expansion w2G w2M w2E 0 (by decide) (by decide)
    (by decide) (by decide)

/-! ### C8: manifest `-a key=value` splitting -/

/-- **C8 counterexample.** `Main` splits a manifest argument with
`arg.split('=', 1)`, i.e. at the *leftmost* `=`.  On `"a=b=c"` the code
produces `("a", "b=c")`, which differs from the rightmost split
`("a=b", "c")` the claim describes. -/
theorem manifestArgSplit_not_rightmost :
    manifestArgSplit "a=b=c" = some ("a", "b=c") ∧
    rightmostSplit "a=b=c" = some ("a=b", "c") ∧
    manifestArgSplit "a=b=c" ≠ rightmostSplit "a=b=c" := by
  refine ⟨rfl, rfl, ?_⟩
  decide

theorem pySplitOnce_leftmost (l : List Char) (h : '=' ∈ l) :
    pySplitOnce l =
      some (l.takeWhile (· ≠ '='), (l.dropWhile (· ≠ '=')).tail) := by
  induction l with
  | nil => cases h
  | cons c rest ih =>
      by_cases hc : c = '='
      · subst hc
        simp [pySplitOnce, List.takeWhile_cons, List.dropWhile_cons]
      · have hm : '=' ∈ rest := by
          rcases List.mem_cons.mp h with h1 | h1
          · exact absurd h1.symm hc
          · exact h1
        simp [pySplitOnce, hc, ih hm, List.takeWhile_cons,
          List.dropWhile_cons]

/-- **C8 amended.** Every `-a key=value` manifest argument containing an
`=` is split at the *leftmost* `=`: the key is everything before the first
`=` and the value everything after it. -/
theorem manifestArgSplit_leftmost (arg : String) (h : '=' ∈ arg.toList) :
    manifestArgSplit arg =
      some (String.mk (arg.toList.takeWhile (· ≠ '=')),
            String.mk ((arg.toList.dropWhile (· ≠ '=')).tail)) := by
  rw [manifestArgSplit, pySplitOnce_leftmost arg.toList h]
  rfl

/-- Witness for C8's amended statement at `"a=b=c"`. -/
theorem manifestArgSplit_leftmost_witness :
    manifestArgSplit "a=b=c" =
      some (String.mk ("a=b=c".toList.takeWhile (· ≠ '=')),
            String.mk (("a=b=c".toList.dropWhile (· ≠ '=')).tail)) :=
  manifestArgSplit_leftmost "a=b=c" (by decide)

end Sprockets
